import Mathlib

/-!
# Verification of `pages_structure.rs` (next-core pages directory walk)

Shallow embedding of `packages/next-swc/crates/next-core/src/pages_structure.rs`:
the recursive directory walk producing a `PagesStructure` route tree, route
classification (Page vs Api), specificity refinement for dynamic/catch-all
segments, deterministic sorting of items/children, root discovery
(`find_pages_structure`) and the `routes_changed` change-signal walk.

External collaborators (the `turbo-tasks-fs` filesystem, the specificity type
from `turbopack-dev-server`, and the memoization substrate's completion token)
are not part of the source slice; they are modelled from the spec where noted.
-/

/-- Model of Rust `str::starts_with` on a pattern list of chars:
`beginsWith pat l` is true iff `pat` is a prefix of `l`. -/
def beginsWith : List Char → List Char → Bool
  | [], _ => true
  | _ :: _, [] => false
  | p :: ps, c :: cs => p == c && beginsWith ps cs

/-- Model of Rust `str::starts_with` (byte-prefix test; for UTF-8 strings the
byte-prefix test agrees with the character-prefix test). -/
def startsWithStr (s pat : String) : Bool :=
  beginsWith pat.data s.data

/-- Model of Rust `str::rsplit_once(c)` on a list of chars: split at the last
occurrence of `c` into (part before, part after); `none` when `c` does not
occur. -/
def rsplitOnceChars (c : Char) : List Char → Option (List Char × List Char)
  | [] => none
  | x :: xs =>
    match rsplitOnceChars c xs with
    | some (b, a) => some (x :: b, a)
    | none => if x == c then some ([], xs) else none

/-- Model of Rust `str::rsplit_once(c)`: split a string at the last occurrence
of `c` into (basename, extension); `none` when `c` does not occur. -/
def rsplitOnce (s : String) (c : Char) : Option (String × String) :=
  (rsplitOnceChars c s.data).map (fun p => (String.mk p.1, String.mk p.2))

/-- Modelled from the spec: the filesystem collaborator's path join
("Joining a path with a relative segment to produce a new path value").
Paths are strings; joining appends a `/`-separated segment. -/
def pathJoin (p s : String) : String := p ++ "/" ++ s

/-- Modelled from the spec: the filesystem collaborator's nesting test
("checking whether one path is nested under another"): `p` is inside `q`
iff `q` followed by a path separator is a prefix of `p` (strict nesting). -/
def isInside (p q : String) : Bool :=
  beginsWith (q ++ "/").data p.data

/-- Modelled from the spec: the `Specificity` ordering key from the
`turbopack-dev-server` collaborator. Only its constructors matter to this
slice: `exact()` as the baseline and the two refinement operations, each
returning a new value derived from the receiver. -/
inductive Specificity where
  | exact : Specificity
  | with_dynamic_segment : Specificity → Nat → Specificity
  | with_catch_all : Specificity → Nat → Specificity
deriving DecidableEq

/-- Modelled from the spec: `FileSystemEntryType` of the filesystem
collaborator (`get_type(path) -> {File, Directory, Other, NotFound}`). -/
inductive FileSystemEntryType where
  | file | directory | notFound | other
deriving DecidableEq

/-- A directory entry as returned by the filesystem collaborator's
`read_directory`. `file`/`directory` carry the entry's project path; a
directory entry additionally carries the `read_dir` result of that path
(`some` entries listing, or `none` when the result is not an entries
listing, e.g. "not_found"); every other entry kind is `other`. -/
inductive FsEntry where
  | file : String → FsEntry
  | directory : String → Option (List (String × FsEntry)) → FsEntry
  | other : FsEntry

/-- `PagesStructureItem`: a final route in the pages directory, a variant over
Page and Api, each carrying `project_path`, `next_router_path` and
`specificity` (source lines 17-30). -/
inductive PagesStructureItem where
  | page : String → String → Specificity → PagesStructureItem
  | api : String → String → Specificity → PagesStructureItem
deriving DecidableEq

/-- Accessor for the `next_router_path` field shared by both variants. -/
def PagesStructureItem.next_router_path : PagesStructureItem → String
  | .page _ p _ => p
  | .api _ p _ => p

/-- Accessor for the `project_path` field shared by both variants. -/
def PagesStructureItem.item_project_path : PagesStructureItem → String
  | .page p _ _ => p
  | .api p _ _ => p

/-- Accessor for the `specificity` field shared by both variants. -/
def PagesStructureItem.item_specificity : PagesStructureItem → Specificity
  | .page _ _ s => s
  | .api _ _ s => s

/-- Whether the item is the `Api` variant. -/
def PagesStructureItem.is_api : PagesStructureItem → Bool
  | .page _ _ _ => false
  | .api _ _ _ => true

/-- `PagesStructureItemVc::new` (source lines 34-56): builds the `Api` variant
when `is_api` holds and the `Page` variant otherwise. -/
def PagesStructureItem.new (project_path next_router_path : String)
    (specificity : Specificity) (is_api : Bool) : PagesStructureItem :=
  if is_api then
    .api project_path next_router_path specificity
  else
    .page project_path next_router_path specificity

/-- `PagesStructure` (source lines 76-81): one node per directory, holding the
directory's `project_path`, its route `items` and its child nodes
`children`. -/
inductive PagesStructure where
  | mk : String → List PagesStructureItem → List PagesStructure → PagesStructure

/-- Accessor for the node's `project_path` field. -/
def PagesStructure.project_path : PagesStructure → String
  | .mk p _ _ => p

/-- Accessor for the node's `items` field. -/
def PagesStructure.items : PagesStructure → List PagesStructureItem
  | .mk _ i _ => i

/-- Accessor for the node's `children` field. -/
def PagesStructure.children : PagesStructure → List PagesStructure
  | .mk _ _ c => c

/-- `it` occurs as an item somewhere in the tree `s`: either directly among
`s.items` or, recursively, in one of `s.children`. -/
inductive ItemIn : PagesStructureItem → PagesStructure → Prop where
  | here {it : PagesStructureItem} {pp : String} {items : List PagesStructureItem}
      {children : List PagesStructure} :
      it ∈ items → ItemIn it (.mk pp items children)
  | inChild {it : PagesStructureItem} {pp : String} {items : List PagesStructureItem}
      {children : List PagesStructure} {c : PagesStructure} :
      c ∈ children → ItemIn it c → ItemIn it (.mk pp items children)

/-- The shadowed per-entry `specificity` computation (source lines 172-178):
names starting with `[[` or `[...` refine with `with_catch_all(position)`,
other names starting with `[` refine with `with_dynamic_segment(position)`,
and all other names inherit the parent's specificity unchanged. -/
def entrySpecificity (specificity : Specificity) (position : Nat) (name : String) :
    Specificity :=
  if startsWithStr name "[[" || startsWithStr name "[..." then
    specificity.with_catch_all position
  else if startsWithStr name "[" then
    specificity.with_dynamic_segment position
  else
    specificity

/-- Rust `slice::sort_by_key(|(k, _)| *k)` on the collected `(name, value)`
pairs: a stable sort ascending by the name. -/
def sortByKey {α : Type} (l : List (String × α)) : List (String × α) :=
  l.mergeSort (fun a b => decide (a.1 ≤ b.1))

mutual

/-- `get_pages_structure_for_directory` (source lines 156-233): handles one
directory. When `read_dir` yields an entries listing (`some entries`) the
entries are processed into named items and named children, each list is
sorted by name for determinism, and the names are discarded; otherwise the
node has empty `items` and `children`. -/
def get_pages_structure_for_directory (project_path : String)
    (dir_content : Option (List (String × FsEntry)))
    (next_router_path : String) (specificity : Specificity) (position : Nat)
    (next_router_api_root : String) (page_extensions : List String) :
    PagesStructure :=
  match dir_content with
  | some entries =>
    let (items, children) :=
      processEntries next_router_path specificity position next_router_api_root
        page_extensions entries
    .mk project_path ((sortByKey items).map Prod.snd)
      ((sortByKey children).map Prod.snd)
  | none => .mk project_path [] []

/-- The entry loop of `get_pages_structure_for_directory` (source lines
171-218): for each `(name, entry)` compute the refined specificity; a file
entry whose name splits at its last `.` into a basename and an allowed
extension yields a named item (router path: the directory's path for
basename `index`, otherwise the basename appended; Api iff the router path
is inside the api root); a directory entry yields a named child by
recursing with the joined router path, the refined specificity and
`position + 1`; other entries are skipped. -/
def processEntries (next_router_path : String) (specificity : Specificity)
    (position : Nat) (next_router_api_root : String) (page_extensions : List String) :
    List (String × FsEntry) →
      List (String × PagesStructureItem) × List (String × PagesStructure)
  | [] => ([], [])
  | (name, entry) :: rest =>
    let (items, children) :=
      processEntries next_router_path specificity position next_router_api_root
        page_extensions rest
    let entrySpec := entrySpecificity specificity position name
    match entry with
    | .file file_project_path =>
      match rsplitOnce name '.' with
      | some (basename, extension) =>
        if page_extensions.any (fun allowed => allowed == extension) then
          let itemRouterPath :=
            if basename == "index" then next_router_path
            else pathJoin next_router_path basename
          ((name,
            PagesStructureItem.new file_project_path itemRouterPath entrySpec
              (isInside itemRouterPath next_router_api_root)) :: items,
           children)
        else (items, children)
      | none => (items, children)
    | .directory dir_project_path sub =>
      (items,
       (name,
        get_pages_structure_for_directory dir_project_path sub
          (pathJoin next_router_path name) entrySpec (position + 1)
          next_router_api_root page_extensions) :: children)
    | .other => (items, children)

end

/-- Per-entry item production, the file arm of the loop in isolation: `some`
named item exactly when the entry is a file whose name splits into a
basename and an allowed extension. -/
def itemOf (next_router_path : String) (specificity : Specificity) (position : Nat)
    (next_router_api_root : String) (page_extensions : List String)
    (pair : String × FsEntry) : Option (String × PagesStructureItem) :=
  match pair with
  | (name, .file file_project_path) =>
    match rsplitOnce name '.' with
    | some (basename, extension) =>
      if page_extensions.any (fun allowed => allowed == extension) then
        let itemRouterPath :=
          if basename == "index" then next_router_path
          else pathJoin next_router_path basename
        some (name,
          PagesStructureItem.new file_project_path itemRouterPath
            (entrySpecificity specificity position name)
            (isInside itemRouterPath next_router_api_root))
      else none
    | none => none
  | _ => none

/-- Per-entry child production, the directory arm of the loop in isolation:
`some` named child node exactly when the entry is a directory. -/
def childOf (next_router_path : String) (specificity : Specificity) (position : Nat)
    (next_router_api_root : String) (page_extensions : List String)
    (pair : String × FsEntry) : Option (String × PagesStructure) :=
  match pair with
  | (name, .directory dir_project_path sub) =>
    some (name,
      get_pages_structure_for_directory dir_project_path sub
        (pathJoin next_router_path name) (entrySpecificity specificity position name)
        (position + 1) next_router_api_root page_extensions)
  | _ => none

/-- `find_pages_structure` (source lines 121-151): prefer `<project_root>/pages`
when it is a directory, else `<project_root>/src/pages` when it is a
directory, else no structure; when found, walk the chosen root at depth 0
with specificity `exact()` and api root `<next_router_root>/api`. The two
`get_type` results and the chosen roots' `read_dir` contents are supplied
as explicit inputs standing for the filesystem collaborator. -/
def find_pages_structure (project_root next_router_root : String)
    (pages_type src_pages_type : FileSystemEntryType)
    (pages_content src_pages_content : Option (List (String × FsEntry)))
    (page_extensions : List String) : Option PagesStructure :=
  if pages_type = FileSystemEntryType.directory then
    some (get_pages_structure_for_directory (pathJoin project_root "pages")
      pages_content next_router_root Specificity.exact 0
      (pathJoin next_router_root "api") page_extensions)
  else if src_pages_type = FileSystemEntryType.directory then
    some (get_pages_structure_for_directory (pathJoin project_root "src/pages")
      src_pages_content next_router_root Specificity.exact 0
      (pathJoin next_router_root "api") page_extensions)
  else
    none

/-- Modelled from the spec: the memoization substrate's content-free
completion token ("Completion / change signal — an opaque, content-less
token"); only identity across calls matters, so a token is a bare id. -/
structure Completion where
  id : Nat
deriving DecidableEq

/-- Modelled from the spec: `CompletionVc::new()` produces a fresh token on
every call; freshness is threaded as a `Nat` counter state. -/
def Completion.freshCompletion (n : Nat) : Completion × Nat :=
  (⟨n⟩, n + 1)

/-- `PagesStructureItemVc::routes_changed` (source lines 61-71): await the
item's `next_router_path` (recorded as the list of observed paths), then
return a fresh completion. -/
def PagesStructureItem.routes_changed (it : PagesStructureItem) (n : Nat) :
    List String × Completion × Nat :=
  let observed := [it.next_router_path]
  let (c, n') := Completion.freshCompletion n
  (observed, c, n')

/-- The items loop of `PagesStructureVc::routes_changed` (source lines 96-98):
await `routes_changed` of each item in order, threading the token counter
and collecting the observed paths. -/
def routesChangedItems : List PagesStructureItem → Nat → List String × Nat
  | [], n => ([], n)
  | it :: rest, n =>
    let (r, _, n₁) := it.routes_changed n
    let (r', n₂) := routesChangedItems rest n₁
    (r ++ r', n₂)

mutual

/-- `PagesStructureVc::routes_changed` (source lines 94-104): await
`routes_changed` of every item, then of every child recursively, then
return a fresh completion. -/
def PagesStructure.routes_changed : PagesStructure → Nat → List String × Completion × Nat
  | .mk _ items children, n =>
    let (r₁, n₁) := routesChangedItems items n
    let (r₂, n₂) := routesChangedChildren children n₁
    let (c, n₃) := Completion.freshCompletion n₂
    (r₁ ++ r₂, c, n₃)

/-- The children loop of `PagesStructureVc::routes_changed` (source lines
99-101): await `routes_changed` of each child in order. -/
def routesChangedChildren : List PagesStructure → Nat → List String × Nat
  | [], n => ([], n)
  | s :: rest, n =>
    let (r, _, n₁) := s.routes_changed n
    let (r', n₂) := routesChangedChildren rest n₁
    (r ++ r', n₂)

end

/-- `OptionPagesStructureVc::routes_changed` (source lines 111-118): delegate
to the structure when present, then return a fresh completion. -/
def optionRoutesChanged (o : Option PagesStructure) (n : Nat) :
    List String × Completion × Nat :=
  match o with
  | some s =>
    let (r, _, n₁) := s.routes_changed n
    let (c, n₂) := Completion.freshCompletion n₁
    (r, c, n₂)
  | none =>
    let (c, n₁) := Completion.freshCompletion n
    ([], c, n₁)

/-! ## Helper lemmas -/

theorem processEntries_eq (rp : String) (sp : Specificity) (pos : Nat) (ar : String)
    (exts : List String) (es : List (String × FsEntry)) :
    processEntries rp sp pos ar exts es =
      (es.filterMap (itemOf rp sp pos ar exts), es.filterMap (childOf rp sp pos ar exts)) := by
  induction es with
  | nil => simp [processEntries]
  | cons e rest ih =>
    obtain ⟨name, entry⟩ := e
    cases entry with
    | file fp =>
      cases h : rsplitOnce name '.' with
      | none => simp [processEntries, ih, itemOf, childOf, h]
      | some p =>
        obtain ⟨b, ext⟩ := p
        by_cases hx : (exts.any (fun allowed => allowed == ext)) = true
        · simp [processEntries, ih, itemOf, childOf, h, hx]
        · simp [processEntries, ih, itemOf, childOf, h, hx]
    | directory dp sub => simp [processEntries, ih, itemOf, childOf]
    | other => simp [processEntries, ih, itemOf, childOf]

theorem itemOf_key (rp : String) (sp : Specificity) (pos : Nat) (ar : String)
    (exts : List String) (pair : String × FsEntry) (out : String × PagesStructureItem)
    (h : itemOf rp sp pos ar exts pair = some out) : out.1 = pair.1 := by
  obtain ⟨name, entry⟩ := pair
  cases entry with
  | file fp =>
    cases hs : rsplitOnce name '.' with
    | none => simp [itemOf, hs] at h
    | some p =>
      obtain ⟨b, ext⟩ := p
      by_cases hx : (exts.any (fun allowed => allowed == ext)) = true
      · simp [itemOf, hs, hx] at h
        simp [← h]
      · simp [itemOf, hs, hx] at h
  | directory dp sub => simp [itemOf] at h
  | other => simp [itemOf] at h

theorem childOf_key (rp : String) (sp : Specificity) (pos : Nat) (ar : String)
    (exts : List String) (pair : String × FsEntry) (out : String × PagesStructure)
    (h : childOf rp sp pos ar exts pair = some out) : out.1 = pair.1 := by
  obtain ⟨name, entry⟩ := pair
  cases entry with
  | file fp => simp [childOf] at h
  | directory dp sub =>
    simp [childOf] at h
    simp [← h]
  | other => simp [childOf] at h

/-- Keys of a key-preserving `filterMap` form a sublist of the input keys. -/
theorem filterMap_keys_sublist {α β : Type} (f : String × α → Option (String × β))
    (hf : ∀ p out, f p = some out → out.1 = p.1) :
    ∀ es : List (String × α),
      ((es.filterMap f).map Prod.fst).Sublist (es.map Prod.fst) := by
  intro es
  induction es with
  | nil => simp
  | cons e rest ih =>
    cases h : f e with
    | none =>
      simp only [List.filterMap_cons, h, List.map_cons]
      exact ih.cons _
    | some out =>
      simp only [List.filterMap_cons, h, List.map_cons, hf e out h]
      exact ih.cons₂ _

theorem sortByKey_perm {α : Type} (l : List (String × α)) : (sortByKey l).Perm l :=
  List.mergeSort_perm l _

theorem sortByKey_pairwise_le {α : Type} (l : List (String × α)) :
    (sortByKey l).Pairwise (fun a b => a.1 ≤ b.1) := by
  have h := @List.sorted_mergeSort (String × α) (fun a b => decide (a.1 ≤ b.1))
    (by intro a b c h₁ h₂; simp only [decide_eq_true_iff] at *; exact le_trans h₁ h₂)
    (by intro a b; simp only [Bool.or_eq_true, decide_eq_true_iff]; exact le_total _ _)
    l
  exact h.imp (by intro a b hab; exact of_decide_eq_true hab)

theorem sortByKey_pairwise_lt {α : Type} (l : List (String × α))
    (hnd : (l.map Prod.fst).Nodup) :
    (sortByKey l).Pairwise (fun a b => a.1 < b.1) := by
  have hperm : ((sortByKey l).map Prod.fst).Perm (l.map Prod.fst) :=
    (sortByKey_perm l).map Prod.fst
  have hnd' : ((sortByKey l).map Prod.fst).Nodup := hperm.nodup_iff.mpr hnd
  have hne : (sortByKey l).Pairwise (fun a b => a.1 ≠ b.1) :=
    List.pairwise_map.mp hnd'
  have := (sortByKey_pairwise_le l).and hne
  exact this.imp (fun h => lt_of_le_of_ne h.1 h.2)

theorem eq_of_perm_of_pairwise_lt {α : Type} {l₁ l₂ : List (String × α)}
    (hp : l₁.Perm l₂) (h₁ : l₁.Pairwise (fun a b => a.1 < b.1))
    (h₂ : l₂.Pairwise (fun a b => a.1 < b.1)) : l₁ = l₂ := by
  haveI : IsAntisymm (String × α) (fun a b => a.1 < b.1) :=
    ⟨fun a b hab hba => absurd (lt_trans hab hba) (lt_irrefl _)⟩
  exact List.eq_of_perm_of_sorted hp h₁ h₂

theorem walk_some (pp rp : String) (sp : Specificity) (pos : Nat) (ar : String)
    (exts : List String) (es : List (String × FsEntry)) :
    get_pages_structure_for_directory pp (some es) rp sp pos ar exts =
      .mk pp ((sortByKey (es.filterMap (itemOf rp sp pos ar exts))).map Prod.snd)
        ((sortByKey (es.filterMap (childOf rp sp pos ar exts))).map Prod.snd) := by
  simp [get_pages_structure_for_directory, processEntries_eq]

theorem walk_none (pp rp : String) (sp : Specificity) (pos : Nat) (ar : String)
    (exts : List String) :
    get_pages_structure_for_directory pp none rp sp pos ar exts = .mk pp [] [] := by
  simp [get_pages_structure_for_directory]

theorem rsplitOnceChars_eq_none (c : Char) (l : List Char) (h : c ∉ l) :
    rsplitOnceChars c l = none := by
  induction l with
  | nil => rfl
  | cons x xs ih =>
    simp only [List.mem_cons, not_or] at h
    have hx : (x == c) = false := beq_eq_false_iff_ne.mpr (fun he => h.1 he.symm)
    simp [rsplitOnceChars, ih h.2, hx]

theorem rsplitOnceChars_ne_none (c : Char) (l : List Char) (h : c ∈ l) :
    rsplitOnceChars c l ≠ none := by
  induction l with
  | nil => simp at h
  | cons x xs ih =>
    simp only [rsplitOnceChars]
    cases hx : rsplitOnceChars c xs with
    | some p => simp
    | none =>
      have hcx : c = x := by
        rcases List.mem_cons.mp h with h' | h'
        · exact h'
        · exact absurd hx (ih h')
      simp [hcx]

theorem rsplitOnceChars_some (c : Char) :
    ∀ (l b a : List Char), rsplitOnceChars c l = some (b, a) →
      l = b ++ c :: a ∧ c ∉ a := by
  intro l
  induction l with
  | nil => intro b a h; simp [rsplitOnceChars] at h
  | cons x xs ih =>
    intro b a h
    simp only [rsplitOnceChars] at h
    cases hx : rsplitOnceChars c xs with
    | some p =>
      obtain ⟨b', a'⟩ := p
      rw [hx] at h
      simp only [Option.some.injEq, Prod.mk.injEq] at h
      obtain ⟨hb, ha⟩ := h
      obtain ⟨hxs, hmem⟩ := ih b' a' hx
      subst hb ha hxs
      exact ⟨rfl, hmem⟩
    | none =>
      rw [hx] at h
      by_cases hxc : (x == c) = true
      · simp only [hxc, if_true, Option.some.injEq, Prod.mk.injEq] at h
        obtain ⟨hb, ha⟩ := h
        have hcx : x = c := eq_of_beq hxc
        constructor
        · rw [← hb, ← ha, hcx]; rfl
        · rw [← ha]
          exact fun hmem => rsplitOnceChars_ne_none c xs hmem hx
      · simp [hxc] at h

theorem rsplitOnce_some (s : String) (c : Char) (b e : String)
    (h : rsplitOnce s c = some (b, e)) :
    s.data = b.data ++ c :: e.data ∧ c ∉ e.data := by
  unfold rsplitOnce at h
  cases hx : rsplitOnceChars c s.data with
  | none => rw [hx] at h; simp at h
  | some p =>
    obtain ⟨lb, la⟩ := p
    rw [hx] at h
    simp only [Option.map_some', Option.some.injEq, Prod.mk.injEq] at h
    obtain ⟨hb, he⟩ := h
    obtain ⟨hs, hmem⟩ := rsplitOnceChars_some c s.data lb la hx
    subst hb he
    exact ⟨hs, hmem⟩

theorem beginsWith_head {p : Char} {ps : List Char} {l : List Char}
    (h : beginsWith (p :: ps) l = true) : beginsWith [p] l = true := by
  cases l with
  | nil => simp [beginsWith] at h
  | cons c cs =>
    simp only [beginsWith, Bool.and_eq_true] at h ⊢
    exact ⟨h.1, trivial⟩

theorem startsWith_bracket_of_double {name : String}
    (h : startsWithStr name "[[" = true) : startsWithStr name "[" = true := by
  have hd : ("[[" : String).data = '[' :: '[' :: [] := rfl
  have hs : ("[" : String).data = '[' :: [] := rfl
  unfold startsWithStr at h ⊢
  rw [hd] at h
  rw [hs]
  exact beginsWith_head h

theorem startsWith_bracket_of_dots {name : String}
    (h : startsWithStr name "[..." = true) : startsWithStr name "[" = true := by
  have hd : ("[..." : String).data = '[' :: '.' :: '.' :: '.' :: [] := rfl
  have hs : ("[" : String).data = '[' :: [] := rfl
  unfold startsWithStr at h ⊢
  rw [hd] at h
  rw [hs]
  exact beginsWith_head h

theorem sortByKey_singleton {α : Type} (x : String × α) : sortByKey [x] = [x] :=
  List.perm_singleton.mp (sortByKey_perm [x])

theorem sortByKey_nil {α : Type} : sortByKey ([] : List (String × α)) = [] :=
  List.perm_nil.mp (sortByKey_perm [])

theorem new_accessors (p r : String) (sp : Specificity) (b : Bool) :
    (PagesStructureItem.new p r sp b).is_api = b ∧
      (PagesStructureItem.new p r sp b).next_router_path = r ∧
      (PagesStructureItem.new p r sp b).item_project_path = p ∧
      (PagesStructureItem.new p r sp b).item_specificity = sp := by
  cases b <;>
    simp [PagesStructureItem.new, PagesStructureItem.is_api,
      PagesStructureItem.next_router_path, PagesStructureItem.item_project_path,
      PagesStructureItem.item_specificity]

theorem itemOf_shape (rp : String) (sp : Specificity) (pos : Nat) (ar : String)
    (exts : List String) (pair : String × FsEntry) (out : String × PagesStructureItem)
    (h : itemOf rp sp pos ar exts pair = some out) :
    ∃ fp R, pair.2 = FsEntry.file fp ∧
      out.2 = PagesStructureItem.new fp R (entrySpecificity sp pos pair.1) (isInside R ar) := by
  obtain ⟨name, entry⟩ := pair
  cases entry with
  | file fp =>
    cases hs : rsplitOnce name '.' with
    | none => simp [itemOf, hs] at h
    | some p =>
      obtain ⟨b, ext⟩ := p
      by_cases hx : (exts.any (fun allowed => allowed == ext)) = true
      · simp only [itemOf, hs, hx, if_true] at h
        injection h with h'
        subst h'
        exact ⟨fp, _, rfl, rfl⟩
      · simp [itemOf, hs, hx] at h
  | directory dp sub => simp [itemOf] at h
  | other => simp [itemOf] at h

theorem childOf_shape (rp : String) (sp : Specificity) (pos : Nat) (ar : String)
    (exts : List String) (pair : String × FsEntry) (out : String × PagesStructure)
    (h : childOf rp sp pos ar exts pair = some out) :
    ∃ dp sub, pair.2 = FsEntry.directory dp sub ∧
      out.2 = get_pages_structure_for_directory dp sub (pathJoin rp pair.1)
        (entrySpecificity sp pos pair.1) (pos + 1) ar exts := by
  obtain ⟨name, entry⟩ := pair
  cases entry with
  | file fp => simp [childOf] at h
  | directory dp sub =>
    simp only [childOf, Option.some.injEq] at h
    exact ⟨dp, sub, rfl, by simp [← h]⟩
  | other => simp [childOf] at h

theorem routes_changed_mk (pp : String) (items : List PagesStructureItem)
    (children : List PagesStructure) (n : Nat) :
    PagesStructure.routes_changed (.mk pp items children) n =
      ((routesChangedItems items n).1 ++
         (routesChangedChildren children (routesChangedItems items n).2).1,
       ⟨(routesChangedChildren children (routesChangedItems items n).2).2⟩,
       (routesChangedChildren children (routesChangedItems items n).2).2 + 1) := by
  simp [PagesStructure.routes_changed, Completion.freshCompletion]

theorem routesChangedItems_le (its : List PagesStructureItem) (n : Nat) :
    n ≤ (routesChangedItems its n).2 := by
  induction its generalizing n with
  | nil => simp [routesChangedItems]
  | cons it rest ih =>
    simp only [routesChangedItems, PagesStructureItem.routes_changed,
      Completion.freshCompletion]
    exact le_trans (Nat.le_succ n) (ih (n + 1))

mutual

theorem routes_changed_le (s : PagesStructure) (n : Nat) :
    n ≤ (s.routes_changed n).2.2 := by
  cases s with
  | mk pp items children =>
    rw [routes_changed_mk]
    exact le_trans (routesChangedItems_le items n)
      (le_trans (routesChangedChildren_le children (routesChangedItems items n).2)
        (Nat.le_succ _))

theorem routesChangedChildren_le (cs : List PagesStructure) (n : Nat) :
    n ≤ (routesChangedChildren cs n).2 := by
  cases cs with
  | nil => simp [routesChangedChildren]
  | cons c rest =>
    simp only [routesChangedChildren]
    exact le_trans (routes_changed_le c n)
      (routesChangedChildren_le rest (c.routes_changed n).2.2)

end

theorem routes_changed_token (s : PagesStructure) (n : Nat) :
    (s.routes_changed n).2.1.id + 1 = (s.routes_changed n).2.2 ∧
      n ≤ (s.routes_changed n).2.1.id := by
  cases s with
  | mk pp items children =>
    rw [routes_changed_mk]
    exact ⟨rfl, le_trans (routesChangedItems_le items n)
      (routesChangedChildren_le children _)⟩

theorem routesChangedItems_mem (its : List PagesStructureItem) (it : PagesStructureItem)
    (h : it ∈ its) (n : Nat) : it.next_router_path ∈ (routesChangedItems its n).1 := by
  induction its generalizing n with
  | nil => simp at h
  | cons a rest ih =>
    simp only [routesChangedItems, PagesStructureItem.routes_changed,
      Completion.freshCompletion]
    rcases List.mem_cons.mp h with h' | h'
    · subst h'
      exact List.mem_append_left _ (List.mem_singleton.mpr rfl)
    · exact List.mem_append_right _ (ih h' _)

theorem routesChangedChildren_mem (cs : List PagesStructure) (path : String)
    (c : PagesStructure) (hc : c ∈ cs) (h : ∀ m, path ∈ (c.routes_changed m).1) (n : Nat) :
    path ∈ (routesChangedChildren cs n).1 := by
  induction cs generalizing n with
  | nil => simp at hc
  | cons a rest ih =>
    simp only [routesChangedChildren]
    rcases List.mem_cons.mp hc with h' | h'
    · subst h'
      exact List.mem_append_left _ (h n)
    · exact List.mem_append_right _ (ih h' _)

theorem itemIn_routes_changed (it : PagesStructureItem) (s : PagesStructure)
    (h : ItemIn it s) : ∀ n, it.next_router_path ∈ (s.routes_changed n).1 := by
  induction h with
  | here hmem =>
    intro n
    rw [routes_changed_mk]
    exact List.mem_append_left _ (routesChangedItems_mem _ _ hmem n)
  | inChild hc hcin ih =>
    intro n
    rw [routes_changed_mk]
    exact List.mem_append_right _
      (routesChangedChildren_mem _ _ _ hc ih _)

theorem is_api_of_itemIn (ar : String) (exts : List String) (it : PagesStructureItem)
    (s : PagesStructure) (hin : ItemIn it s) :
    ∀ (pp : String) (content : Option (List (String × FsEntry))) (rp : String)
      (sp : Specificity) (pos : Nat),
      s = get_pages_structure_for_directory pp content rp sp pos ar exts →
      it.is_api = isInside it.next_router_path ar := by
  induction hin with
  | here hmem =>
    intro pp content rp sp pos hs
    cases content with
    | none =>
      rw [walk_none] at hs
      injection hs with h1 h2 h3
      rw [h2] at hmem
      simp at hmem
    | some es =>
      rw [walk_some] at hs
      injection hs with h1 h2 h3
      rw [h2] at hmem
      obtain ⟨pair, hpair, hsnd⟩ := List.mem_map.mp hmem
      have hpair' : pair ∈ es.filterMap (itemOf rp sp pos ar exts) :=
        (sortByKey_perm _).mem_iff.mp hpair
      obtain ⟨entry, hentry, hio⟩ := List.mem_filterMap.mp hpair'
      obtain ⟨fp, R, hentry2, hout⟩ := itemOf_shape rp sp pos ar exts entry pair hio
      rw [← hsnd, hout]
      obtain ⟨ha, hr, _, _⟩ :=
        new_accessors fp R (entrySpecificity sp pos entry.1) (isInside R ar)
      rw [ha, hr]
  | inChild hc hcin ih =>
    intro pp content rp sp pos hs
    cases content with
    | none =>
      rw [walk_none] at hs
      injection hs with h1 h2 h3
      rw [h3] at hc
      simp at hc
    | some es =>
      rw [walk_some] at hs
      injection hs with h1 h2 h3
      rw [h3] at hc
      obtain ⟨pair, hpair, hsnd⟩ := List.mem_map.mp hc
      have hpair' : pair ∈ es.filterMap (childOf rp sp pos ar exts) :=
        (sortByKey_perm _).mem_iff.mp hpair
      obtain ⟨entry, hentry, hco⟩ := List.mem_filterMap.mp hpair'
      obtain ⟨dp, sub, hentry2, hout⟩ := childOf_shape rp sp pos ar exts entry pair hco
      exact ih dp sub (pathJoin rp entry.1) (entrySpecificity sp pos entry.1) (pos + 1)
        (by rw [← hsnd, hout])

/-! ## Claims -/

/-- C1: for every directory, the walk's resulting node has its named item
pairs sorted strictly ascending (lexicographic) by the original file name
and its named child pairs sorted strictly ascending by the original
directory name — the node's `items` and `children` are exactly those
sorted pairs with the names discarded — and two runs over the same entry
set in permuted listing orders produce identical trees. -/
theorem walk_sorted_and_deterministic (pp rp : String) (sp : Specificity) (pos : Nat)
    (ar : String) (exts : List String) (es es' : List (String × FsEntry))
    (hnd : (es.map Prod.fst).Nodup) (hperm : es.Perm es') :
    (sortByKey (es.filterMap (itemOf rp sp pos ar exts))).Pairwise (fun a b => a.1 < b.1)
  ∧ (sortByKey (es.filterMap (childOf rp sp pos ar exts))).Pairwise (fun a b => a.1 < b.1)
  ∧ (get_pages_structure_for_directory pp (some es) rp sp pos ar exts).items =
      (sortByKey (es.filterMap (itemOf rp sp pos ar exts))).map Prod.snd
  ∧ (get_pages_structure_for_directory pp (some es) rp sp pos ar exts).children =
      (sortByKey (es.filterMap (childOf rp sp pos ar exts))).map Prod.snd
  ∧ get_pages_structure_for_directory pp (some es) rp sp pos ar exts =
      get_pages_structure_for_directory pp (some es') rp sp pos ar exts := by
  have hndI : ((es.filterMap (itemOf rp sp pos ar exts)).map Prod.fst).Nodup :=
    List.Nodup.sublist (filterMap_keys_sublist _ (itemOf_key rp sp pos ar exts) es) hnd
  have hndC : ((es.filterMap (childOf rp sp pos ar exts)).map Prod.fst).Nodup :=
    List.Nodup.sublist (filterMap_keys_sublist _ (childOf_key rp sp pos ar exts) es) hnd
  have hlt1 := sortByKey_pairwise_lt _ hndI
  have hlt2 := sortByKey_pairwise_lt _ hndC
  have hnd' : (es'.map Prod.fst).Nodup := (hperm.map Prod.fst).nodup_iff.mp hnd
  have hndI' : ((es'.filterMap (itemOf rp sp pos ar exts)).map Prod.fst).Nodup :=
    List.Nodup.sublist (filterMap_keys_sublist _ (itemOf_key rp sp pos ar exts) es') hnd'
  have hndC' : ((es'.filterMap (childOf rp sp pos ar exts)).map Prod.fst).Nodup :=
    List.Nodup.sublist (filterMap_keys_sublist _ (childOf_key rp sp pos ar exts) es') hnd'
  have e1 : sortByKey (es.filterMap (itemOf rp sp pos ar exts)) =
      sortByKey (es'.filterMap (itemOf rp sp pos ar exts)) :=
    eq_of_perm_of_pairwise_lt
      ((sortByKey_perm _).trans ((hperm.filterMap _).trans (sortByKey_perm _).symm))
      hlt1 (sortByKey_pairwise_lt _ hndI')
  have e2 : sortByKey (es.filterMap (childOf rp sp pos ar exts)) =
      sortByKey (es'.filterMap (childOf rp sp pos ar exts)) :=
    eq_of_perm_of_pairwise_lt
      ((sortByKey_perm _).trans ((hperm.filterMap _).trans (sortByKey_perm _).symm))
      hlt2 (sortByKey_pairwise_lt _ hndC')
  refine ⟨hlt1, hlt2, ?_, ?_, ?_⟩
  · rw [walk_some]
    simp only [PagesStructure.items]
  · rw [walk_some]
    simp only [PagesStructure.children]
  · rw [walk_some, walk_some, e1, e2]

/-- Witness for C1 at a concrete two-entry listing and its transposition. -/
theorem walk_sorted_and_deterministic_witness :
    get_pages_structure_for_directory "pages"
        (some [("b.tsx", FsEntry.file "pages/b.tsx"), ("a.tsx", FsEntry.file "pages/a.tsx")])
        "" Specificity.exact 0 "/api" ["tsx"] =
      get_pages_structure_for_directory "pages"
        (some [("a.tsx", FsEntry.file "pages/a.tsx"), ("b.tsx", FsEntry.file "pages/b.tsx")])
        "" Specificity.exact 0 "/api" ["tsx"] :=
  (walk_sorted_and_deterministic "pages" "" Specificity.exact 0 "/api" ["tsx"]
    [("b.tsx", FsEntry.file "pages/b.tsx"), ("a.tsx", FsEntry.file "pages/a.tsx")]
    [("a.tsx", FsEntry.file "pages/a.tsx"), ("b.tsx", FsEntry.file "pages/b.tsx")]
    (by decide)
    (List.Perm.swap ("a.tsx", FsEntry.file "pages/a.tsx")
      ("b.tsx", FsEntry.file "pages/b.tsx") [])).2.2.2.2

/-- C2: the specificity passed on for a directory entry is derived from the
entry's name: names starting with `[[` or `[...` refine the parent's
specificity with `with_catch_all` at the current depth (so `[[...slug]]`
and `[...slug]` are classified identically as catch-all), other names
starting with `[` refine with `with_dynamic_segment` at the current depth,
and all other names inherit the parent's specificity unchanged. -/
theorem entry_specificity_classification (sp : Specificity) (pos : Nat) (name : String) :
    ((startsWithStr name "[[" = true ∨ startsWithStr name "[..." = true) →
        entrySpecificity sp pos name = sp.with_catch_all pos)
  ∧ (startsWithStr name "[[" = false → startsWithStr name "[..." = false →
        startsWithStr name "[" = true →
        entrySpecificity sp pos name = sp.with_dynamic_segment pos)
  ∧ (startsWithStr name "[" = false → entrySpecificity sp pos name = sp)
  ∧ entrySpecificity sp pos "[[...slug]]" = entrySpecificity sp pos "[...slug]"
  ∧ entrySpecificity sp pos "[[...slug]]" = sp.with_catch_all pos := by
  refine ⟨?_, ?_, ?_, rfl, rfl⟩
  · intro h
    unfold entrySpecificity
    rcases h with h | h
    · rw [h]; simp
    · rw [h]; simp
  · intro h1 h2 h3
    unfold entrySpecificity
    rw [h1, h2, h3]
    simp
  · intro h
    have h1 : startsWithStr name "[[" = false := by
      cases hb : startsWithStr name "[[" with
      | false => rfl
      | true => rw [startsWith_bracket_of_double hb] at h; exact absurd h (by simp)
    have h2 : startsWithStr name "[..." = false := by
      cases hb : startsWithStr name "[..." with
      | false => rfl
      | true => rw [startsWith_bracket_of_dots hb] at h; exact absurd h (by simp)
    unfold entrySpecificity
    rw [h1, h2, h]
    simp

/-- Witness for C2 at the three concrete name shapes. -/
theorem entry_specificity_classification_witness :
    entrySpecificity Specificity.exact 2 "[...slug]" =
        Specificity.with_catch_all Specificity.exact 2
  ∧ entrySpecificity Specificity.exact 2 "[id]" =
        Specificity.with_dynamic_segment Specificity.exact 2
  ∧ entrySpecificity Specificity.exact 2 "about" = Specificity.exact :=
  ⟨(entry_specificity_classification Specificity.exact 2 "[...slug]").1
      (Or.inr (by decide)),
   (entry_specificity_classification Specificity.exact 2 "[id]").2.1
      (by decide) (by decide) (by decide),
   (entry_specificity_classification Specificity.exact 2 "about").2.2.1 (by decide)⟩

/-- C3: for every file entry with an allowed extension, the produced item's
router path is the containing directory's router path unchanged when the
basename is exactly `index`, and otherwise is the directory's router path
with the basename appended as a final segment; the item appears among the
node's items. -/
theorem file_item_router_path (pp rp : String) (sp : Specificity) (pos : Nat) (ar : String)
    (exts : List String) (name fp basename extension : String)
    (es : List (String × FsEntry))
    (hsplit : rsplitOnce name '.' = some (basename, extension))
    (hext : exts.any (fun allowed => allowed == extension) = true)
    (hmem : (name, FsEntry.file fp) ∈ es) :
    itemOf rp sp pos ar exts (name, FsEntry.file fp) =
      some (name, PagesStructureItem.new fp
        (if basename = "index" then rp else pathJoin rp basename)
        (entrySpecificity sp pos name)
        (isInside (if basename = "index" then rp else pathJoin rp basename) ar))
  ∧ PagesStructureItem.new fp (if basename = "index" then rp else pathJoin rp basename)
      (entrySpecificity sp pos name)
      (isInside (if basename = "index" then rp else pathJoin rp basename) ar) ∈
      (get_pages_structure_for_directory pp (some es) rp sp pos ar exts).items := by
  have hio : itemOf rp sp pos ar exts (name, FsEntry.file fp) =
      some (name, PagesStructureItem.new fp
        (if basename = "index" then rp else pathJoin rp basename)
        (entrySpecificity sp pos name)
        (isInside (if basename = "index" then rp else pathJoin rp basename) ar)) := by
    simp only [itemOf, hsplit, hext, if_true]
    by_cases hb : basename = "index"
    · simp [hb]
    · have hb' : (basename == "index") = false := beq_eq_false_iff_ne.mpr hb
      simp [hb, hb']
  refine ⟨hio, ?_⟩
  rw [walk_some]
  simp only [PagesStructure.items]
  exact List.mem_map.mpr ⟨(name, _),
    (sortByKey_perm _).mem_iff.mpr
      (List.mem_filterMap.mpr ⟨(name, FsEntry.file fp), hmem, hio⟩), rfl⟩

/-- Witness for C3 at a concrete non-index file. -/
theorem file_item_router_path_witness :
    itemOf "/r" Specificity.exact 0 "/r/api" ["tsx"]
        ("about.tsx", FsEntry.file "p/about.tsx") =
      some ("about.tsx", PagesStructureItem.page "p/about.tsx" "/r/about" Specificity.exact)
  ∧ PagesStructureItem.page "p/about.tsx" "/r/about" Specificity.exact ∈
      (get_pages_structure_for_directory "p"
        (some [("about.tsx", FsEntry.file "p/about.tsx")])
        "/r" Specificity.exact 0 "/r/api" ["tsx"]).items := by
  have h := file_item_router_path "p" "/r" Specificity.exact 0 "/r/api" ["tsx"]
    "about.tsx" "p/about.tsx" "about" "tsx"
    [("about.tsx", FsEntry.file "p/about.tsx")] rfl rfl (List.mem_singleton.mpr rfl)
  exact h

/-- C4: a route item produced under `find_pages_structure` is classified Api
exactly when its computed router path is nested under the api root
`<next_router_root>/api`, and Page otherwise. -/
theorem api_route_classification (proot rroot : String) (pt st : FileSystemEntryType)
    (pc sc : Option (List (String × FsEntry))) (exts : List String)
    (s : PagesStructure) (it : PagesStructureItem)
    (hfind : find_pages_structure proot rroot pt st pc sc exts = some s)
    (hin : ItemIn it s) :
    it.is_api = isInside it.next_router_path (pathJoin rroot "api") := by
  unfold find_pages_structure at hfind
  by_cases h1 : pt = FileSystemEntryType.directory
  · rw [if_pos h1] at hfind
    injection hfind with h
    exact is_api_of_itemIn _ exts it s hin _ _ _ _ _ h.symm
  · rw [if_neg h1] at hfind
    by_cases h2 : st = FileSystemEntryType.directory
    · rw [if_pos h2] at hfind
      injection hfind with h
      exact is_api_of_itemIn _ exts it s hin _ _ _ _ _ h.symm
    · rw [if_neg h2] at hfind
      exact absurd hfind (by simp)

/-- Witness for C4 at a concrete one-file project. -/
theorem api_route_classification_witness :
    (PagesStructureItem.page "p/users.ts" "/users" Specificity.exact).is_api =
      isInside (PagesStructureItem.page "p/users.ts" "/users"
        Specificity.exact).next_router_path (pathJoin "" "api") := by
  have hmem : PagesStructureItem.page "p/users.ts" "/users" Specificity.exact ∈
      (sortByKey (List.filterMap (itemOf "" Specificity.exact 0 (pathJoin "" "api") ["ts"])
        [("users.ts", FsEntry.file "p/users.ts")])).map Prod.snd := by
    rw [show List.filterMap (itemOf "" Specificity.exact 0 (pathJoin "" "api") ["ts"])
        [("users.ts", FsEntry.file "p/users.ts")] =
        [("users.ts", PagesStructureItem.page "p/users.ts" "/users" Specificity.exact)]
      from rfl]
    rw [sortByKey_singleton]
    simp
  have hin : ItemIn (PagesStructureItem.page "p/users.ts" "/users" Specificity.exact)
      (get_pages_structure_for_directory (pathJoin "" "pages")
        (some [("users.ts", FsEntry.file "p/users.ts")])
        "" Specificity.exact 0 (pathJoin "" "api") ["ts"]) := by
    rw [walk_some]
    exact ItemIn.here hmem
  exact api_route_classification "" "" FileSystemEntryType.directory
    FileSystemEntryType.notFound (some [("users.ts", FsEntry.file "p/users.ts")]) none
    ["ts"] _ _ rfl hin

/-- C5: observing `routes_changed` on a `PagesStructure` node observes the
router path of every item directly in the node and, recursively, of every
item of every child node, and returns a fresh completion token: a second
call (on the same, unchanged tree) yields a different token. -/
theorem routes_changed_observes_all_and_fresh (s : PagesStructure) (n : Nat) :
    (∀ it : PagesStructureItem, ItemIn it s →
        it.next_router_path ∈ (s.routes_changed n).1)
  ∧ (s.routes_changed n).2.1 ≠ (s.routes_changed ((s.routes_changed n).2.2)).2.1 := by
  refine ⟨fun it hin => itemIn_routes_changed it s hin n, ?_⟩
  intro h
  have h1 := routes_changed_token s n
  have h2 := routes_changed_token s ((s.routes_changed n).2.2)
  have hid := congrArg Completion.id h
  omega

/-- Witness for C5 at a concrete one-item tree. -/
theorem routes_changed_observes_all_and_fresh_witness :
    "/a" ∈ ((PagesStructure.mk "p"
        [PagesStructureItem.page "f" "/a" Specificity.exact] []).routes_changed 0).1 :=
  (routes_changed_observes_all_and_fresh
    (PagesStructure.mk "p" [PagesStructureItem.page "f" "/a" Specificity.exact] []) 0).1
    (PagesStructureItem.page "f" "/a" Specificity.exact)
    (ItemIn.here (List.mem_singleton.mpr rfl))

/-- C6: `find_pages_structure` selects `<project_root>/pages` when it is a
directory, otherwise `<project_root>/src/pages` when that is a directory,
and otherwise returns the empty optional rather than failing; when a root
is found the walk starts at depth 0 with specificity `exact()` and api
root `<next_router_root>/api`. -/
theorem find_pages_structure_selection (proot rroot : String)
    (pt st : FileSystemEntryType)
    (pc sc : Option (List (String × FsEntry))) (exts : List String) :
    (pt = FileSystemEntryType.directory →
        find_pages_structure proot rroot pt st pc sc exts =
          some (get_pages_structure_for_directory (pathJoin proot "pages") pc rroot
            Specificity.exact 0 (pathJoin rroot "api") exts))
  ∧ (pt ≠ FileSystemEntryType.directory → st = FileSystemEntryType.directory →
        find_pages_structure proot rroot pt st pc sc exts =
          some (get_pages_structure_for_directory (pathJoin proot "src/pages") sc rroot
            Specificity.exact 0 (pathJoin rroot "api") exts))
  ∧ (pt ≠ FileSystemEntryType.directory → st ≠ FileSystemEntryType.directory →
        find_pages_structure proot rroot pt st pc sc exts = none) := by
  refine ⟨?_, ?_, ?_⟩
  · intro h
    simp [find_pages_structure, h]
  · intro h1 h2
    simp [find_pages_structure, h1, h2]
  · intro h1 h2
    simp [find_pages_structure, h1, h2]

/-- Witness for C6 at a project with neither `pages` nor `src/pages`. -/
theorem find_pages_structure_selection_witness :
    find_pages_structure "" "" FileSystemEntryType.notFound FileSystemEntryType.notFound
      none none [] = none :=
  (find_pages_structure_selection "" "" FileSystemEntryType.notFound
    FileSystemEntryType.notFound none none []).2.2 (by decide) (by decide)

/-- C7: a file entry whose name contains no dot yields no item, and a file
entry whose extension (the segment after the last dot) is not among the
configured page extensions yields no item (silent skip); the extension is
always the segment after the last dot: the split satisfies
`name = basename ++ "." ++ extension` with a dot-free extension. -/
theorem file_skip_policy (rp : String) (sp : Specificity) (pos : Nat) (ar : String)
    (exts : List String) (name fp : String) :
    (('.' ∉ name.data) → rsplitOnce name '.' = none ∧
        itemOf rp sp pos ar exts (name, FsEntry.file fp) = none)
  ∧ (∀ basename extension, rsplitOnce name '.' = some (basename, extension) →
        exts.any (fun allowed => allowed == extension) = false →
        itemOf rp sp pos ar exts (name, FsEntry.file fp) = none)
  ∧ (∀ basename extension, rsplitOnce name '.' = some (basename, extension) →
        name.data = basename.data ++ '.' :: extension.data ∧ '.' ∉ extension.data) := by
  refine ⟨?_, ?_, ?_⟩
  · intro h
    have hn : rsplitOnce name '.' = none := by
      unfold rsplitOnce
      rw [rsplitOnceChars_eq_none '.' name.data h]
      rfl
    exact ⟨hn, by simp [itemOf, hn]⟩
  · intro b e hs hx
    simp [itemOf, hs, hx]
  · intro b e hs
    exact rsplitOnce_some name '.' b e hs

/-- Witness for C7 at a dotless name and at an unlisted extension. -/
theorem file_skip_policy_witness :
    itemOf "/r" Specificity.exact 0 "/a" ["tsx"] ("README", FsEntry.file "p/README") = none
  ∧ itemOf "/r" Specificity.exact 0 "/a" ["tsx"]
      ("notes.md", FsEntry.file "p/notes.md") = none :=
  ⟨((file_skip_policy "/r" Specificity.exact 0 "/a" ["tsx"] "README" "p/README").1
      (by decide)).2,
   (file_skip_policy "/r" Specificity.exact 0 "/a" ["tsx"] "notes.md" "p/notes.md").2.1
      "notes" "md" rfl rfl⟩

/-- C8: a directory entry makes the walk recurse with `position + 1`, the
parent's router path joined with the directory name, the same api root and
page-extensions configuration, and the refined (or inherited) specificity;
the recursive result becomes a child node of the parent. -/
theorem directory_entry_recursion (pp rp : String) (sp : Specificity) (pos : Nat)
    (ar : String) (exts : List String) (name dp : String)
    (sub : Option (List (String × FsEntry))) (es : List (String × FsEntry))
    (hmem : (name, FsEntry.directory dp sub) ∈ es) :
    childOf rp sp pos ar exts (name, FsEntry.directory dp sub) =
      some (name, get_pages_structure_for_directory dp sub (pathJoin rp name)
        (entrySpecificity sp pos name) (pos + 1) ar exts)
  ∧ get_pages_structure_for_directory dp sub (pathJoin rp name)
      (entrySpecificity sp pos name) (pos + 1) ar exts ∈
      (get_pages_structure_for_directory pp (some es) rp sp pos ar exts).children := by
  refine ⟨rfl, ?_⟩
  rw [walk_some]
  simp only [PagesStructure.children]
  exact List.mem_map.mpr ⟨(name, _),
    (sortByKey_perm _).mem_iff.mpr
      (List.mem_filterMap.mpr ⟨(name, FsEntry.directory dp sub), hmem, rfl⟩), rfl⟩

/-- Witness for C8 at a concrete one-directory listing. -/
theorem directory_entry_recursion_witness :
    childOf "/r" Specificity.exact 0 "/a" ["tsx"]
        ("blog", FsEntry.directory "p/blog" none) =
      some ("blog", get_pages_structure_for_directory "p/blog" none (pathJoin "/r" "blog")
        (entrySpecificity Specificity.exact 0 "blog") 1 "/a" ["tsx"])
  ∧ get_pages_structure_for_directory "p/blog" none (pathJoin "/r" "blog")
      (entrySpecificity Specificity.exact 0 "blog") 1 "/a" ["tsx"] ∈
      (get_pages_structure_for_directory "p"
        (some [("blog", FsEntry.directory "p/blog" none)])
        "/r" Specificity.exact 0 "/a" ["tsx"]).children :=
  directory_entry_recursion "p" "/r" Specificity.exact 0 "/a" ["tsx"] "blog" "p/blog"
    none [("blog", FsEntry.directory "p/blog" none)] (List.mem_singleton.mpr rfl)

/-- C9: when a directory's `read_dir` result is not an entries listing, the
walk does not fail: it returns a node carrying that project path with
empty items and empty children. -/
theorem walk_non_entries (pp rp : String) (sp : Specificity) (pos : Nat) (ar : String)
    (exts : List String) :
    (get_pages_structure_for_directory pp none rp sp pos ar exts).project_path = pp
  ∧ (get_pages_structure_for_directory pp none rp sp pos ar exts).items = []
  ∧ (get_pages_structure_for_directory pp none rp sp pos ar exts).children = [] := by
  rw [walk_none]
  exact ⟨rfl, rfl, rfl⟩

/-- C10: a file whose name begins with a dot and whose remainder is an
allowed extension splits at the last dot into an empty basename (which is
not `index`) and that extension, so an item is produced whose router path
is the directory's router path joined with the empty string — the entry is
neither skipped nor collapsed to the directory path. -/
theorem dotfile_empty_basename (pp rp : String) (sp : Specificity) (pos : Nat)
    (ar : String) (exts : List String) (fp ext : String)
    (hnd : '.' ∉ ext.data)
    (hext : exts.any (fun allowed => allowed == ext) = true) :
    rsplitOnce ("." ++ ext) '.' = some ("", ext)
  ∧ itemOf rp sp pos ar exts ("." ++ ext, FsEntry.file fp) =
      some ("." ++ ext, PagesStructureItem.new fp (pathJoin rp "")
        (entrySpecificity sp pos ("." ++ ext)) (isInside (pathJoin rp "") ar))
  ∧ pathJoin rp "" ≠ rp
  ∧ get_pages_structure_for_directory pp (some [("." ++ ext, FsEntry.file fp)])
        rp sp pos ar exts =
      .mk pp [PagesStructureItem.new fp (pathJoin rp "")
        (entrySpecificity sp pos ("." ++ ext)) (isInside (pathJoin rp "") ar)] [] := by
  have hdata : ("." ++ ext).data = '.' :: ext.data := rfl
  have hsplit : rsplitOnce ("." ++ ext) '.' = some ("", ext) := by
    unfold rsplitOnce
    rw [hdata]
    simp only [rsplitOnceChars, rsplitOnceChars_eq_none '.' ext.data hnd]
    simp
  have hio : itemOf rp sp pos ar exts ("." ++ ext, FsEntry.file fp) =
      some ("." ++ ext, PagesStructureItem.new fp (pathJoin rp "")
        (entrySpecificity sp pos ("." ++ ext)) (isInside (pathJoin rp "") ar)) := by
    simp only [itemOf, hsplit, hext, if_true]
    rw [show (("" : String) == "index") = false from rfl]
    simp
  refine ⟨hsplit, hio, ?_, ?_⟩
  · intro h
    have hlen := congrArg String.length h
    simp [pathJoin, String.length_append] at hlen
    exact absurd hlen (by decide)
  · rw [walk_some]
    rw [show List.filterMap (itemOf rp sp pos ar exts)
        [("." ++ ext, FsEntry.file fp)] =
        [("." ++ ext, PagesStructureItem.new fp (pathJoin rp "")
          (entrySpecificity sp pos ("." ++ ext)) (isInside (pathJoin rp "") ar))]
      from by simp [List.filterMap_cons, hio]]
    rw [show List.filterMap (childOf rp sp pos ar exts)
        [("." ++ ext, FsEntry.file fp)] = [] from by simp [List.filterMap_cons, childOf]]
    rw [sortByKey_singleton, sortByKey_nil]
    rfl

/-- Witness for C10 at the concrete name `.tsx`. -/
theorem dotfile_empty_basename_witness :
    rsplitOnce ".tsx" '.' = some ("", "tsx")
  ∧ itemOf "/r" Specificity.exact 0 "/a" ["tsx"] (".tsx", FsEntry.file "p/.tsx") =
      some (".tsx", PagesStructureItem.page "p/.tsx" "/r/" Specificity.exact) := by
  have h := dotfile_empty_basename "p" "/r" Specificity.exact 0 "/a" ["tsx"] "p/.tsx"
    "tsx" (by decide) rfl
  exact ⟨h.1, h.2.1⟩
